import Mathlib

/-!
Verification development for the peer-persistence subsystem
(`sc-network` excerpt: `persist_peers.rs`, `peer_addresses_persistence.rs`,
and the `sc-state-db` metadata helpers in `meta_data.rs`).

Modelling conventions:
* `PeerId` and `Multiaddr` are opaque, hashable, equality-comparable
  values; both are embedded as `Nat`.
* The base58 textual encoding of a `PeerId` is embedded abstractly as
  `Option PeerId`: `some p` stands for the canonical text of `p`, `none`
  for a string that fails to parse.  (`to_base58` is injective and
  `parse` inverts it; distinct unparsable strings are collapsed, which
  no claim distinguishes.)
* `HashSet<Multiaddr>` is embedded as `Finset Nat`; iterating a hash set
  (whose order is unspecified in the source) is embedded as iterating
  its sorted list of elements.
* `HashMap<ProtocolType, _>` is embedded as an association list in
  insertion order (the source's iteration order is unspecified; no claim
  depends on it).
* `lru::LruCache` is embedded as a capacity plus a list of key/value
  pairs held in most-recently-used-first order, with the `lru` crate's
  semantics for `get`/`get_mut` (both promote the key to
  most-recently-used), `push` (promotes an existing key, otherwise
  inserts at the front, evicting the least-recently-used entry when the
  cache is full) and `iter` (most-recently-used first).
-/

namespace PersistPeers

abbrev PeerId := Nat
abbrev Multiaddr := Nat
abbrev ProtocolType := String
abbrev AddrSet := Finset Multiaddr

/-- Abstract model of the base58 text of a peer identity. -/
abbrev PeerIdText := Option PeerId

/-- `PeerId::to_base58`. -/
def peerIdToText (p : PeerId) : PeerIdText := some p

/-- `str::parse::<PeerId>`: inverts `to_base58`, fails on malformed text. -/
def parsePeerId (t : PeerIdText) : Option PeerId := t

/-- Iterating a `HashSet<Multiaddr>` (whose order the source leaves
unspecified): a canonical duplicate-free enumeration of the set. -/
def addrList (v : AddrSet) : List Multiaddr :=
  (List.range (v.sup id + 1)).filter (fun a => decide (a ∈ v))

/-- Model of `lru::LruCache`: entries in most-recently-used-first order. -/
structure LruCache (K V : Type) where
  cap : Nat
  entries : List (K × V)
deriving DecidableEq

/-- `LruCache::new(cap)`. -/
def LruCache.empty (K V : Type) (cap : Nat) : LruCache K V := ⟨cap, []⟩

/-- First entry for key `k` (what a hash lookup inside the cache finds). -/
def LruCache.find (c : LruCache PeerId AddrSet) (k : PeerId) : Option (PeerId × AddrSet) :=
  c.entries.find? (fun e => decide (e.1 = k))

/-- `LruCache::get` / `get_mut`: returns the value and promotes the key to
most-recently-used; absent keys leave the cache unchanged. -/
def LruCache.get (c : LruCache PeerId AddrSet) (k : PeerId) :
    Option AddrSet × LruCache PeerId AddrSet :=
  match c.find k with
  | some e => (some e.2, ⟨c.cap, (k, e.2) :: c.entries.filter (fun e2 => decide (e2.1 ≠ k))⟩)
  | none => (none, c)

/-- `LruCache::push`, also reporting the entry evicted by a capacity
insertion (the `lru` crate returns the displaced entry; only genuine
capacity evictions matter to the claims, a value update of a present key
evicts nothing). -/
def LruCache.pushE (c : LruCache PeerId AddrSet) (k : PeerId) (v : AddrSet) :
    LruCache PeerId AddrSet × Option (PeerId × AddrSet) :=
  match c.find k with
  | some _ => (⟨c.cap, (k, v) :: c.entries.filter (fun e2 => decide (e2.1 ≠ k))⟩, none)
  | none =>
    if c.cap ≤ c.entries.length then
      (⟨c.cap, (k, v) :: c.entries.dropLast⟩, c.entries.getLast?)
    else
      (⟨c.cap, (k, v) :: c.entries⟩, none)

/-- `LruCache::push` without the eviction report. -/
def LruCache.push (c : LruCache PeerId AddrSet) (k : PeerId) (v : AddrSet) :
    LruCache PeerId AddrSet :=
  (c.pushE k v).1

abbrev PeerCache := LruCache PeerId AddrSet

/-- `HashMap<ProtocolType, LruCache<PeerId, HashSet<Multiaddr>>>`. -/
abbrev Book := List (ProtocolType × PeerCache)

/-- `PEER_ADDRS_CACHE_SIZE`. -/
def PEER_ADDRS_CACHE_SIZE : Nat := 100

/-- `HashMap` lookup on the protocol map. -/
def bookLookup (b : Book) (p : ProtocolType) : Option PeerCache :=
  (b.find? (fun e => decide (e.1 = p))).map Prod.snd

/-- Replace the cache stored under key `p`. -/
def bookUpdate (b : Book) (p : ProtocolType) (c : PeerCache) : Book :=
  b.map (fun e => if e.1 = p then (p, c) else e)

/-- The body of `report_peer_addr` on one protocol's cache:
`get_mut` hit inserts the address into the peer's set (promoting the
peer); a miss pushes a fresh singleton entry. -/
def reportInCache (c : PeerCache) (peer : PeerId) (addr : Multiaddr) :
    PeerCache × Option (PeerId × AddrSet) :=
  match c.find peer with
  | some e =>
    (⟨c.cap, (peer, insert addr e.2) :: c.entries.filter (fun e2 => decide (e2.1 ≠ peer))⟩, none)
  | none => c.pushE peer {addr}

/-- `PersistPeerAddrs::report_peer_addr`, also reporting the
`(protocol, peer)` entry evicted by a capacity insertion, if any. -/
def report_peer_addr (b : Book) (peer : PeerId) (protocol : ProtocolType) (addr : Multiaddr) :
    Book × Option (ProtocolType × PeerId) :=
  match bookLookup b protocol with
  | some c =>
    let r := reportInCache c peer addr
    (bookUpdate b protocol r.1, r.2.map (fun e => (protocol, e.1)))
  | none =>
    let r := reportInCache (LruCache.empty PeerId AddrSet PEER_ADDRS_CACHE_SIZE) peer addr
    (b ++ [(protocol, r.1)], r.2.map (fun e => (protocol, e.1)))

/-- `PersistPeerAddrs::peer_addrs`, with the returned lazy iterator fully
forced: the list of addresses it yields, and the book after iteration
(iteration calls `LruCache::get` on each queried protocol's cache). -/
def peer_addrs (b : Book) (peer : PeerId) (protocols : List ProtocolType) :
    List Multiaddr × Book :=
  let results := b.map (fun e =>
    if protocols.any (fun p => decide (p = e.1)) then
      match e.2.get peer with
      | (some v, c2) => (addrList v, (e.1, c2))
      | (none, c2) => (([] : List Multiaddr), (e.1, c2))
    else (([] : List Multiaddr), e))
  ((results.map Prod.fst).flatten, results.map Prod.snd)

/-- `persist_peer_addrs::PeerEntry`: one serialized cache entry. -/
structure PeerEntry where
  peer_id : PeerIdText
  addrs : List Multiaddr
deriving DecidableEq

/-- The on-disk shape handed to `persist_peer_addrs::persist` (the
`HashMap<ProtocolType, Vec<PeerEntry>>` built inside `poll`). -/
abbrev Snapshot := List (ProtocolType × List PeerEntry)

/-- The flattening performed inside `PersistPeerAddrs::poll` before a
write: each protocol's cache iterated most-recently-used first,
each peer rendered as text with its address set as a list. -/
def to_snapshot (b : Book) : Snapshot :=
  b.map (fun e =>
    (e.1, e.2.entries.map (fun kv => PeerEntry.mk (peerIdToText kv.1) (addrList kv.2))))

/-- One snapshot entry parsed back into a cache entry (`peer_id.parse()`
plus collecting the address list into a set); `none` when the peer
identity text fails to parse. -/
def parseEntry (pe : PeerEntry) : Option (PeerId × AddrSet) :=
  (parsePeerId pe.peer_id).map (fun pid => (pid, pe.addrs.toFinset))

/-- The per-protocol replay inside `PersistPeerAddrs::load`: fold the
entries in reverse snapshot order into a fresh capacity-100 LRU,
silently skipping entries whose peer identity fails to parse. -/
def loadCache (entries : List PeerEntry) : PeerCache :=
  entries.reverse.foldl
    (fun acc pe =>
      match parsePeerId pe.peer_id with
      | some pid => acc.push pid pe.addrs.toFinset
      | none => acc)
    (LruCache.empty PeerId AddrSet PEER_ADDRS_CACHE_SIZE)

/-- The snapshot-to-book reconstruction in `PersistPeerAddrs::load`. -/
def load_from_snapshot (s : Snapshot) : Book :=
  s.map (fun e => (e.1, loadCache e.2))

/-- Non-mutating per-protocol, per-peer address lookup (used to compare
book states; corresponds to `LruCache::peek`, which the claims use to
talk about cache content without touching recency). -/
def addrsAt (b : Book) (p : ProtocolType) (peer : PeerId) : Option AddrSet :=
  (bookLookup b p).bind (fun c => (c.find peer).map Prod.snd)

/- ---------------------------------------------------------------------
The `PersistPeerAddrs` poll-driven write scheduler (persist_peers.rs).
Time is modelled as a `Nat` timestamp supplied to `poll`; the in-flight
boxed future is identified by the snapshot payload it is writing; the
poll context is modelled by the optional readiness result of that
future.
--------------------------------------------------------------------- -/

abbrev IoErrorMsg := String

deriving instance DecidableEq for Except

/-- `FLUSH_INTERVAL` (seconds). -/
def FLUSH_INTERVAL : Nat := 5

/-- The mutable state of `PersistPeerAddrs` (the path handles, which no
claim depends on, are omitted). -/
structure PersistPeerAddrs where
  flushed_at : Nat
  protocols : Book
  busy : Option Snapshot
deriving DecidableEq

/-- Result of one `PersistPeerAddrs::poll` call: the successor state and
the payload of the write initiated by this call, if any. -/
structure PollOutcome where
  state : PersistPeerAddrs
  started : Option Snapshot
deriving DecidableEq

/-- `PersistPeerAddrs::poll`.  `now` is the current instant;
`busyResult` is `some r` when the in-flight future polls `Ready(r)`,
`none` when it is still pending (ignored when no write is in flight). -/
def PersistPeerAddrs.poll (s : PersistPeerAddrs) (now : Nat)
    (busyResult : Option (Except IoErrorMsg Unit)) : PollOutcome :=
  match s.busy with
  | some _job =>
    match busyResult with
    | some _result => ⟨{ s with busy := none, flushed_at := now }, none⟩
    | none => ⟨s, none⟩
  | none =>
    if FLUSH_INTERVAL < now - s.flushed_at then
      let snap := to_snapshot s.protocols
      ⟨{ s with busy := some snap }, some snap⟩
    else
      ⟨s, none⟩

/- ---------------------------------------------------------------------
The `Enabled` poll-driven write scheduler
(peer_addresses_persistence.rs).
--------------------------------------------------------------------- -/

/-- `MIN_WRITE_INTERVAL` (seconds). -/
def MIN_WRITE_INTERVAL : Nat := 10

/-- The state of `peer_addresses_persistence::Enabled` (paths omitted). -/
structure Enabled where
  flushed_at : Nat
  entries : List Multiaddr
  busy : Option (List Multiaddr)
deriving DecidableEq

/-- Result of one `Enabled::poll` call. -/
structure EnabledOutcome where
  state : Enabled
  started : Option (List Multiaddr)
deriving DecidableEq

/-- `Enabled::can_flush`. -/
def Enabled.can_flush (e : Enabled) (now : Nat) : Bool :=
  MIN_WRITE_INTERVAL < now - e.flushed_at

/-- `Enabled::poll`: `latest` is the snapshot collected from the caller's
iterator; a write is spawned only when none is in flight, the cooldown
has elapsed and `latest` differs from the recorded entries. -/
def Enabled.poll (e : Enabled) (now : Nat)
    (busyResult : Option (Except IoErrorMsg Unit)) (latest : List Multiaddr) :
    EnabledOutcome :=
  match e.busy with
  | some _job =>
    match busyResult with
    | some _result => ⟨{ e with flushed_at := now, busy := none }, none⟩
    | none => ⟨e, none⟩
  | none =>
    if e.can_flush now then
      if latest ≠ e.entries then
        ⟨{ e with entries := latest, busy := some latest }, some latest⟩
      else ⟨e, none⟩
    else ⟨e, none⟩

/- ---------------------------------------------------------------------
Report traces: the book as a function of a sequence of
`report_peer_addr` calls, with the capacity evictions each call makes.
--------------------------------------------------------------------- -/

/-- One `report_peer_addr` call. -/
structure Report where
  peer : PeerId
  protocol : ProtocolType
  addr : Multiaddr
deriving DecidableEq

/-- Apply one report to a book. -/
def applyReport (b : Book) (r : Report) : Book × Option (ProtocolType × PeerId) :=
  report_peer_addr b r.peer r.protocol r.addr

/-- The book after a sequence of reports. -/
def runReports (b : Book) (rs : List Report) : Book :=
  rs.foldl (fun acc r => (applyReport acc r).1) b

/-- The `(protocol, peer)` entries evicted by capacity while running a
sequence of reports from book `b`. -/
def evictions (b : Book) : List Report → List (ProtocolType × PeerId)
  | [] => []
  | r :: rest =>
    let step := applyReport b r
    step.2.toList ++ evictions step.1 rest

/-- `addr` is currently recorded for `peer` in protocol `p`'s cache
(the non-mutating content view used by the trace claims). -/
def holdsAddr (b : Book) (p : ProtocolType) (peer : PeerId) (a : Multiaddr) : Prop :=
  ∃ c, bookLookup b p = some c ∧ ∃ kv, c.find peer = some kv ∧ a ∈ kv.2

/- ---------------------------------------------------------------------
The atomic-write helpers (`persist_peer_addrs::persist` and the
`persist` free function in peer_addresses_persistence.rs), modelled as
sequences of fallible filesystem steps.  File contents are modelled as
the serialized document value (serde_json on these types is injective
and total, so byte-level identity coincides with document identity);
`tmpSynced` records whether the bytes written to the temp file have been
forced to stable storage.
--------------------------------------------------------------------- -/

/-- The filesystem steps a persist routine can take.  `bufFlush` is
`AsyncWriteExt::flush` (pushes buffered data to the OS file, no storage
sync); `syncData` is `File::sync_data` (forces the data to stable
storage). -/
inductive FsStep where
  | openTmp
  | serialize
  | writeAll
  | bufFlush
  | syncData
  | rename
deriving DecidableEq

/-- Filesystem state relevant to one final/tmp path pair, with contents
of type `α` (`none` inside the outer option = file absent; inner `none`
= file present but empty/truncated). -/
structure FsState (α : Type) where
  final : Option (Option α)
  tmp : Option (Option α)
  tmpSynced : Bool
deriving DecidableEq

/-- Effect of one successfully executed step. -/
def FsStep.apply (value : α) (fs : FsState α) : FsStep → FsState α
  | .openTmp => { fs with tmp := some none, tmpSynced := false }
  | .serialize => fs
  | .writeAll => { fs with tmp := some (some value) }
  | .bufFlush => fs
  | .syncData => { fs with tmpSynced := true }
  | .rename => { fs with final := fs.tmp, tmp := none }

/-- Run a persist routine: execute its steps in order; the first step the
oracle `fails` makes the whole call return that step's I/O error to the
caller (`?`), leaving the remaining steps unexecuted. -/
def runPersist (steps : List FsStep) (value : α) (fails : FsStep → Bool)
    (fs : FsState α) : FsState α × Except IoErrorMsg Unit :=
  match steps with
  | [] => (fs, .ok ())
  | s :: rest =>
    if fails s then (fs, .error "io")
    else runPersist rest value fails (s.apply value fs)

/-- The step sequence of `persist_peer_addrs::persist`: open tmp
(create/truncate), `serde_json::to_vec_pretty`, `write_all`, `flush`,
drop, `rename` — note: no storage sync. -/
def peerAddrsPersistSteps : List FsStep :=
  [.openTmp, .serialize, .writeAll, .bufFlush, .rename]

/-- The step sequence of `peer_addresses_persistence::persist`: open tmp
(create/truncate), `serde_json::to_vec_pretty`, `write_all`,
`sync_data`, `rename`. -/
def enabledPersistSteps : List FsStep :=
  [.openTmp, .serialize, .writeAll, .syncData, .rename]

/- ---------------------------------------------------------------------
`peersets::load` (persist_peers.rs).  The filesystem read is modelled by
its four possible outcomes.
--------------------------------------------------------------------- -/

/-- `peersets::PeerInfo`: one serialized peer-set record. -/
structure PeerInfo where
  peer_id : PeerIdText
  reputation : Int
  sets : List Nat
deriving DecidableEq

/-- Outcome of opening and decoding the peer-sets file. -/
inductive FileReadResult (α : Type) where
  | notFound
  | openFailure (e : IoErrorMsg)
  | decodeFailure (e : IoErrorMsg)
  | ok (a : α)
deriving DecidableEq

/-- `peersets::load`: missing file yields an empty list; open and decode
failures are surfaced; on success each record whose peer identity parses
is kept, the rest are dropped individually. -/
def peersets_load (r : FileReadResult (List PeerInfo)) :
    Except IoErrorMsg (List (PeerId × Int × List Nat)) :=
  match r with
  | .notFound => .ok []
  | .openFailure e => .error e
  | .decodeFailure e => .error e
  | .ok infos =>
    .ok (infos.filterMap (fun i =>
      (parsePeerId i.peer_id).map (fun pid => (pid, i.reputation, i.sets))))

end PersistPeers

namespace StateDbMeta

/-!
Model of `sc-state-db`'s `meta_data.rs`.  Keys and values of the
metadata store are byte strings (`List Nat`); `to_meta_key(suffix, &())`
is `().encode() ++ suffix = suffix`, so the two keys are the raw
suffixes.  The store itself (the `MetaDb` trait) is modelled as an ideal
key/value map in which `get_meta` returns exactly what `set_meta` last
stored — which is the hypothesis of the round-trip claim.
-/

abbrev Bytes := List Nat

/-- Byte string of an ASCII literal. -/
def bytesOfAscii (s : String) : Bytes := s.data.map Char.toNat

def PRUNING_MODE_KEY : Bytes := bytesOfAscii "mode"
def PRUNING_MODE_ARG_KEY : Bytes := bytesOfAscii "mode_arg"
def PRUNING_MODE_ARCHIVE : Bytes := bytesOfAscii "archive"
def PRUNING_MODE_ARCHIVE_CANON : Bytes := bytesOfAscii "archive_canonical"
def PRUNING_MODE_CONSTRAINED : Bytes := bytesOfAscii "constrained"

/-- Modelled from the spec: the `Constraints` payload of
`PruningMode::Constrained` is defined in `sc-state-db`'s `lib.rs`, which
is outside the excerpt; only its derived SCALE `encode`/`decode` pair is
used by `meta_data.rs`.  Modelled as the pair of optional numeric
pruning bounds (a `u32` block bound and a `u64`-sized memory bound) with
the SCALE option-tag-plus-little-endian encoding a derived codec
produces. -/
structure Constraints where
  max_blocks : Option Nat
  max_mem : Option Nat
deriving DecidableEq

/-- Little-endian byte encoding of `n` in `w` bytes. -/
def natToLE : Nat → Nat → Bytes
  | 0, _ => []
  | w + 1, n => n % 256 :: natToLE w (n / 256)

/-- Little-endian byte decoding. -/
def natFromLE (bs : Bytes) : Nat :=
  bs.foldr (fun b acc => b + 256 * acc) 0

/-- SCALE encoding of an optional `w`-byte integer. -/
def encodeOptNat (w : Nat) : Option Nat → Bytes
  | none => [0]
  | some n => 1 :: natToLE w n

/-- SCALE decoding of an optional `w`-byte integer, returning the rest
of the input. -/
def decodeOptNat (w : Nat) (bs : Bytes) : Option (Option Nat × Bytes) :=
  match bs with
  | 0 :: rest => some (none, rest)
  | 1 :: rest =>
    if w ≤ rest.length then some (some (natFromLE (rest.take w)), rest.drop w)
    else none
  | _ => none

/-- `Constraints::encode` (derived SCALE codec). -/
def Constraints.encode (c : Constraints) : Bytes :=
  encodeOptNat 4 c.max_blocks ++ encodeOptNat 8 c.max_mem

/-- `Constraints::decode` (derived SCALE codec; trailing input bytes are
ignored, as SCALE decoding consumes only what it needs). -/
def Constraints.decode (bs : Bytes) : Option Constraints :=
  match decodeOptNat 4 bs with
  | none => none
  | some (blocks, rest) =>
    match decodeOptNat 8 rest with
    | none => none
    | some (mem, _rest2) => some ⟨blocks, mem⟩

/-- `Constraints::default()`: both bounds absent. -/
def Constraints.defaultValue : Constraints := ⟨none, none⟩

/-- `PruningMode` (variants as matched in `meta_data.rs`). -/
inductive PruningMode where
  | ArchiveAll
  | ArchiveCanonical
  | Constrained (c : Constraints)
deriving DecidableEq

/-- Ideal metadata store: `get_meta` returns exactly what `set_meta`
last stored for each key. -/
abbrev MetaDb := Bytes → Option Bytes

def set_meta (db : MetaDb) (k : Bytes) (v : Option Bytes) : MetaDb :=
  fun k2 => if k2 = k then v else db k2

def get_meta (db : MetaDb) (k : Bytes) : Option Bytes := db k

/-- `StateDb::meta_data_write_pruning_mode` over the ideal store. -/
def meta_data_write_pruning_mode (db : MetaDb) (pm : PruningMode) : MetaDb :=
  let pair : Bytes × Option Bytes :=
    match pm with
    | .ArchiveAll => (PRUNING_MODE_ARCHIVE, none)
    | .ArchiveCanonical => (PRUNING_MODE_ARCHIVE_CANON, none)
    | .Constrained c => (PRUNING_MODE_CONSTRAINED, some c.encode)
  set_meta (set_meta db PRUNING_MODE_KEY (some pair.1)) PRUNING_MODE_ARG_KEY pair.2

/-- `StateDb::meta_data_fetch_pruning_mode` over the ideal store.  The
outer `Option` models panics: `none` stands for the `expect` on a
constraints decode failure or the `unimplemented!` on an unexpected mode
byte string; `some r` models the `Ok(r)` return. -/
def meta_data_fetch_pruning_mode (db : MetaDb) : Option (Option PruningMode) :=
  let mode := get_meta db PRUNING_MODE_KEY
  let mode_arg := get_meta db PRUNING_MODE_ARG_KEY
  match mode with
  | none => some none
  | some bs =>
    if bs = PRUNING_MODE_ARCHIVE then some (some .ArchiveAll)
    else if bs = PRUNING_MODE_ARCHIVE_CANON then some (some .ArchiveCanonical)
    else if bs = PRUNING_MODE_CONSTRAINED then
      match mode_arg with
      | some arg => (Constraints.decode arg).map (fun c => some (.Constrained c))
      | none => some (some (.Constrained Constraints.defaultValue))
    else none

end StateDbMeta

/- =====================================================================
Theorems
===================================================================== -/

namespace PersistPeers

/-- C1 (counterexample): in `PersistPeerAddrs::poll` the dirty check is
absent.  Concretely: a write of the current snapshot completes
successfully, the book is unchanged and the cooldown has elapsed, yet
the next poll initiates a new write of the identical snapshot — the
claim's "no new write is initiated" is false for this scheduler. -/
theorem claim_C1_counterexample :
    let b := (report_peer_addr [] 1 "p" 7).1
    let s0 : PersistPeerAddrs := ⟨0, b, none⟩
    let o1 := s0.poll 6 none
    let o2 := o1.state.poll 7 (some (.ok ()))
    let o3 := o2.state.poll 13 none
    o1.started = some (to_snapshot b)
    ∧ o2.state.busy = none
    ∧ o2.state.protocols = b
    ∧ FLUSH_INTERVAL < 13 - o2.state.flushed_at
    ∧ o3.started = some (to_snapshot o2.state.protocols) := by
  decide

/-- C1 (amended): the snapshot comparison exists only in the `Enabled`
scheduler of peer_addresses_persistence.rs, and it compares against the
last recorded (attempted) snapshot: `Enabled::poll` initiates a new
write only if no write is in flight, the cooldown has elapsed and the
current snapshot differs from the recorded entries; in particular an
unchanged snapshot never triggers a write.  `PersistPeerAddrs::poll`
performs no comparison: with no write in flight and the cooldown
elapsed it always initiates a write. -/
theorem claim_C1_amended (e : Enabled) (now : Nat)
    (busyResult : Option (Except IoErrorMsg Unit)) (latest : List Multiaddr) :
    (∀ snap, (e.poll now busyResult latest).started = some snap →
        e.busy = none ∧ e.can_flush now = true ∧ snap = latest ∧ latest ≠ e.entries)
    ∧ (latest = e.entries → (e.poll now busyResult latest).started = none)
    ∧ (∀ s : PersistPeerAddrs, s.busy = none → FLUSH_INTERVAL < now - s.flushed_at →
        (s.poll now busyResult).started = some (to_snapshot s.protocols)) := by
  refine ⟨?_, ?_, ?_⟩
  · intro snap hsnap
    cases hb : e.busy with
    | some job =>
      cases busyResult <;> simp [Enabled.poll, hb] at hsnap
    | none =>
      by_cases hf : e.can_flush now
      · by_cases hne : latest = e.entries
        · simp [Enabled.poll, hb, hf, hne] at hsnap
        · simp [Enabled.poll, hb, hf, hne] at hsnap
          exact ⟨rfl, hf, hsnap.symm, hne⟩
      · simp [Enabled.poll, hb, hf] at hsnap
  · intro hlat
    cases hb : e.busy with
    | some job => cases busyResult <;> simp [Enabled.poll, hb]
    | none =>
      by_cases hf : e.can_flush now <;> simp [Enabled.poll, hb, hf, hlat]
  · intro s hb hel
    simp [PersistPeerAddrs.poll, hb, hel]

/-- Witness for C1's amended theorem at a concrete scheduler state. -/
theorem claim_C1_witness :
    (Enabled.poll ⟨0, [4], none⟩ 20 none [4]).started = none :=
  (claim_C1_amended ⟨0, [4], none⟩ 20 none [4]).2.1 rfl

/-- C3: at most one write per data source is in flight: while a write is
in flight, a poll of either scheduler never starts a new write, and as
long as the in-flight future is still pending the same write remains the
one in flight (a dirty snapshot is deferred); a new write is only ever
started from the idle state, which then holds exactly that write. -/
theorem claim_C3 :
    (∀ (s : PersistPeerAddrs) (now : Nat) (br : Option (Except IoErrorMsg Unit))
        (job : Snapshot), s.busy = some job →
        (s.poll now br).started = none
        ∧ (br = none → (s.poll now br).state = s))
    ∧ (∀ (s : PersistPeerAddrs) (now : Nat) (br : Option (Except IoErrorMsg Unit))
        (snap : Snapshot), (s.poll now br).started = some snap →
        s.busy = none ∧ (s.poll now br).state.busy = some snap)
    ∧ (∀ (e : Enabled) (now : Nat) (br : Option (Except IoErrorMsg Unit))
        (latest : List Multiaddr) (job : List Multiaddr), e.busy = some job →
        (e.poll now br latest).started = none
        ∧ (br = none → (e.poll now br latest).state = e))
    ∧ (∀ (e : Enabled) (now : Nat) (br : Option (Except IoErrorMsg Unit))
        (latest : List Multiaddr) (snap : List Multiaddr),
        (e.poll now br latest).started = some snap →
        e.busy = none ∧ (e.poll now br latest).state.busy = some snap) := by
  refine ⟨?_, ?_, ?_, ?_⟩
  · intro s now br job hb
    cases br <;> simp [PersistPeerAddrs.poll, hb]
  · intro s now br snap hst
    cases hb : s.busy with
    | some job => cases br <;> simp [PersistPeerAddrs.poll, hb] at hst
    | none =>
      by_cases hel : FLUSH_INTERVAL < now - s.flushed_at
      · simp [PersistPeerAddrs.poll, hb, hel] at hst ⊢
        exact hst
      · simp [PersistPeerAddrs.poll, hb, hel] at hst
  · intro e now br latest job hb
    cases br <;> simp [Enabled.poll, hb]
  · intro e now br latest snap hst
    cases hb : e.busy with
    | some job => cases br <;> simp [Enabled.poll, hb] at hst
    | none =>
      by_cases hf : e.can_flush now
      · by_cases hne : latest = e.entries <;>
          simp [Enabled.poll, hb, hf, hne] at hst ⊢
        exact hst
      · simp [Enabled.poll, hb, hf] at hst

/-- Witness for C3 at a concrete in-flight state of each scheduler. -/
theorem claim_C3_witness :
    ((⟨0, [], some [("p", [])]⟩ : PersistPeerAddrs).poll 50 none).started = none
    ∧ ((⟨0, [], some [("p", [])]⟩ : PersistPeerAddrs).poll 50 none).state
        = ⟨0, [], some [("p", [])]⟩
    ∧ ((⟨0, [3], some [9]⟩ : Enabled).poll 50 none [7]).started = none := by
  have h1 := claim_C3.1 ⟨0, [], some [("p", [])]⟩ 50 none [("p", [])] rfl
  have h2 := claim_C3.2.2.1 ⟨0, [3], some [9]⟩ 50 none [7] [9] rfl
  exact ⟨h1.1, h1.2 rfl, h2.1⟩

/-- C2 (counterexample): `peer_addrs` is built on `LruCache::get`, which
promotes the queried key.  Concretely: after reporting peer 1 then
peer 2 under protocol "p" the recency order is `[2, 1]` (peer 1 is the
eviction candidate); iterating `peer_addrs(1, \x7b"p"\x7d)` reorders it
to `[1, 2]`, so the cache state after the call differs from the state
before it. -/
theorem claim_C2_counterexample :
    let b := (report_peer_addr (report_peer_addr [] 1 "p" 7).1 2 "p" 8).1
    (peer_addrs b 1 ["p"]).2 ≠ b
    ∧ (bookLookup b "p").map (fun c => c.entries.map Prod.fst) = some [2, 1]
    ∧ (bookLookup (peer_addrs b 1 ["p"]).2 "p").map
        (fun c => c.entries.map Prod.fst) = some [1, 2] := by
  decide

/-- C2 (amended): `peer_addrs` does mutate recency: in each queried
protocol's cache that contains the peer, the peer's entry is promoted to
most-recently-used with its address set unchanged and all other entries
kept in their previous relative order; caches of protocols that are not
queried, or that do not contain the peer, are left exactly as they
were. -/
theorem claim_C2_amended (b : Book) (peer : PeerId) (protocols : List ProtocolType) :
    ((peer_addrs b peer protocols).2.length = b.length)
    ∧ (∀ (i : Nat) (e e2 : ProtocolType × PeerCache),
        b[i]? = some e → ((peer_addrs b peer protocols).2)[i]? = some e2 →
        e2.1 = e.1
        ∧ (protocols.any (fun p => decide (p = e.1)) = false → e2 = e)
        ∧ (e.2.find peer = none → e2 = e)
        ∧ (∀ kv, e.2.find peer = some kv →
            protocols.any (fun p => decide (p = e.1)) = true →
            e2.2.cap = e.2.cap
            ∧ e2.2.entries
                = (peer, kv.2) :: e.2.entries.filter (fun x => decide (x.1 ≠ peer)))) := by
  constructor
  · simp [peer_addrs]
  · intro i e e2 hbe hres
    have hmap : ((peer_addrs b peer protocols).2)[i]?
        = Option.map (fun e => ((if protocols.any (fun p => decide (p = e.1)) then
            match e.2.get peer with
            | (some v, c2) => (addrList v, (e.1, c2))
            | (none, c2) => (([] : List Multiaddr), (e.1, c2))
          else (([] : List Multiaddr), e)) :
            List Multiaddr × (ProtocolType × PeerCache)).2) b[i]? := by
      simp only [peer_addrs, List.getElem?_map, Option.map_map]
      rfl
    rw [hbe, hres] at hmap
    have he2 := Option.some.inj hmap
    subst he2
    beta_reduce
    by_cases hq : protocols.any (fun p => decide (p = e.1))
    · rw [if_pos hq]
      cases hfind : e.2.find peer with
      | none =>
        have hval : (match e.2.get peer with
            | (some v, c2) => ((addrList v, (e.1, c2)) : List Multiaddr × (ProtocolType × PeerCache))
            | (none, c2) => (([] : List Multiaddr), (e.1, c2))).2 = (e.1, e.2) := by
          simp only [LruCache.get, hfind]
        rw [hval]
        exact ⟨rfl, fun _ => Prod.mk.eta, fun _ => Prod.mk.eta,
          fun kv hkv _ => Option.noConfusion hkv⟩
      | some kv =>
        have hval : (match e.2.get peer with
            | (some v, c2) => ((addrList v, (e.1, c2)) : List Multiaddr × (ProtocolType × PeerCache))
            | (none, c2) => (([] : List Multiaddr), (e.1, c2))).2
            = (e.1, ⟨e.2.cap,
                (peer, kv.2) :: e.2.entries.filter (fun x => decide (x.1 ≠ peer))⟩) := by
          simp only [LruCache.get, hfind]
        rw [hval]
        refine ⟨rfl, ?_, ?_, ?_⟩
        · intro hfalse; rw [hq] at hfalse; exact Bool.noConfusion hfalse
        · intro hnone; exact Option.noConfusion hnone
        · intro kv2 hkv2 _
          cases Option.some.inj hkv2
          exact ⟨rfl, rfl⟩
    · rw [if_neg hq]
      exact ⟨rfl, fun _ => rfl, fun _ => rfl, fun kv hkv htrue => by
        rw [htrue] at hq; exact absurd rfl hq⟩

/-- Witness for C2's amended theorem: the concrete promotion performed
by the counterexample's query, derived from the theorem. -/
theorem claim_C2_witness :
    ((⟨100, [(1, ({7} : AddrSet)), (2, {8})]⟩ : PeerCache).cap
        = (⟨100, [(2, ({8} : AddrSet)), (1, {7})]⟩ : PeerCache).cap)
    ∧ ((⟨100, [(1, ({7} : AddrSet)), (2, {8})]⟩ : PeerCache).entries
        = ((1 : PeerId), ({7} : AddrSet))
            :: (⟨100, [(2, ({8} : AddrSet)), (1, {7})]⟩ : PeerCache).entries.filter
                (fun x => decide (x.1 ≠ 1))) := by
  have h := (claim_C2_amended
    (report_peer_addr (report_peer_addr [] 1 "p" 7).1 2 "p" 8).1 1 ["p"]).2
    0 ("p", ⟨100, [(2, {8}), (1, {7})]⟩) ("p", ⟨100, [(1, {7}), (2, {8})]⟩)
    (by decide) (by decide)
  exact h.2.2.2 (1, {7}) (by decide) (by decide)

/-- C7 (counterexample): `persist_peer_addrs::persist` (one of the two
cited persist routines) contains no storage-sync step — the tokio
`flush` only pushes buffered data to the OS file — so a fully successful
run renames the temp file over the final path without ever forcing the
bytes to stable storage: the claim's "forces them to stable storage, and
only then renames" is false for it. -/
theorem claim_C7_counterexample :
    (runPersist peerAddrsPersistSteps ([] : Snapshot) (fun _ => false)
        ⟨none, none, false⟩).2 = .ok ()
    ∧ (runPersist peerAddrsPersistSteps ([] : Snapshot) (fun _ => false)
        ⟨none, none, false⟩).1 = ⟨some (some []), none, false⟩
    ∧ FsStep.syncData ∉ peerAddrsPersistSteps := by
  decide

/-- C7 (amended): both persist routines serialize the value, write it
fully to the temp path (created/truncated), and only then rename the
temp path over the final path; any I/O error at any step aborts the
operation and is reported to the caller, and a failure leaves the final
path's previous content unchanged.  The peer_addresses_persistence
variant forces the bytes to stable storage (`sync_data`) before the
rename; the persist_peers variant only flushes the write buffer and
never issues a storage sync. -/
theorem claim_C7_amended {α : Type} (value : α) (fails : FsStep → Bool) (fs : FsState α) :
    ((runPersist peerAddrsPersistSteps value fails fs).2 = Except.ok ()
        ↔ ∀ s ∈ peerAddrsPersistSteps, fails s = false)
    ∧ ((runPersist enabledPersistSteps value fails fs).2 = Except.ok ()
        ↔ ∀ s ∈ enabledPersistSteps, fails s = false)
    ∧ ((runPersist peerAddrsPersistSteps value fails fs).2 ≠ Except.ok () →
        (runPersist peerAddrsPersistSteps value fails fs).1.final = fs.final)
    ∧ ((runPersist enabledPersistSteps value fails fs).2 ≠ Except.ok () →
        (runPersist enabledPersistSteps value fails fs).1.final = fs.final)
    ∧ ((runPersist enabledPersistSteps value fails fs).2 = Except.ok () →
        (runPersist enabledPersistSteps value fails fs).1
          = ⟨some (some value), none, true⟩)
    ∧ ((runPersist peerAddrsPersistSteps value fails fs).2 = Except.ok () →
        (runPersist peerAddrsPersistSteps value fails fs).1
          = ⟨some (some value), none, false⟩) := by
  by_cases h1 : fails .openTmp <;>
    by_cases h2 : fails .serialize <;>
      by_cases h3 : fails .writeAll <;>
        by_cases h4 : fails .bufFlush <;>
          by_cases h5 : fails .syncData <;>
            by_cases h6 : fails .rename <;>
              simp [peerAddrsPersistSteps, enabledPersistSteps, runPersist, FsStep.apply,
                h1, h2, h3, h4, h5, h6]

/-- Witness for C7's amended theorem: a rename failure leaves the
previously persisted final content in place. -/
theorem claim_C7_witness :
    (runPersist enabledPersistSteps ([] : Snapshot)
        (fun s => decide (s = FsStep.rename))
        ⟨some (some [("q", [])]), none, false⟩).1.final = some (some [("q", [])]) :=
  (claim_C7_amended ([] : Snapshot) (fun s => decide (s = FsStep.rename))
      ⟨some (some [("q", [])]), none, false⟩).2.2.2.1 (by decide)

/-- C8: `peersets::load` returns an empty list (not an error) when the
peer-sets file is absent; when the file decodes, every record whose
peer-identity text parses is returned (with its reputation and set
memberships), every returned record comes from such a record, and the
load itself never fails. -/
theorem claim_C8 :
    peersets_load (FileReadResult.notFound) = .ok []
    ∧ (∀ (infos : List PeerInfo) (out : List (PeerId × Int × List Nat)),
        peersets_load (.ok infos) = .ok out →
        (∀ i ∈ infos, ∀ pid, parsePeerId i.peer_id = some pid →
            (pid, i.reputation, i.sets) ∈ out)
        ∧ (∀ x ∈ out, ∃ i ∈ infos,
            parsePeerId i.peer_id = some x.1 ∧ x.2.1 = i.reputation ∧ x.2.2 = i.sets)) := by
  refine ⟨rfl, ?_⟩
  intro infos out hout
  have hout2 : out = infos.filterMap (fun i =>
      (parsePeerId i.peer_id).map (fun pid => (pid, i.reputation, i.sets))) := by
    have := hout
    simp only [peersets_load] at this
    exact (Except.ok.inj this).symm
  subst hout2
  constructor
  · intro i hi pid hpid
    exact List.mem_filterMap.mpr ⟨i, hi, by simp [hpid]⟩
  · intro x hx
    rcases List.mem_filterMap.mp hx with ⟨i, hi, hmap⟩
    cases hparse : parsePeerId i.peer_id with
    | none => rw [hparse] at hmap; cases hmap
    | some pid =>
      rw [hparse] at hmap
      have hx2 := Option.some.inj hmap
      exact ⟨i, hi, by rw [← hx2, hparse], by rw [← hx2], by rw [← hx2]⟩

/-- Witness for C8 at a concrete file content with one well-formed and
one malformed record. -/
theorem claim_C8_witness :
    ((3 : PeerId), (5 : Int), [(0 : Nat)])
      ∈ ([((3 : PeerId), (5 : Int), [(0 : Nat)])] : List (PeerId × Int × List Nat)) := by
  have h := (claim_C8.2 [⟨some 3, 5, [0]⟩, ⟨none, 1, []⟩] [(3, 5, [0])] (by decide)).1
  exact h ⟨some 3, 5, [0]⟩ (by simp) 3 rfl

end PersistPeers

namespace StateDbMeta

/-- Little-endian decode inverts little-endian encode below the width
bound. -/
theorem natFromLE_natToLE (w : Nat) : ∀ n : Nat, n < 256 ^ w →
    natFromLE (natToLE w n) = n := by
  induction w with
  | zero =>
    intro n hn
    simp [Nat.pow_zero] at hn
    simp [natToLE, natFromLE, hn]
  | succ w ih =>
    intro n hn
    have hd : n / 256 < 256 ^ w := by
      rw [Nat.div_lt_iff_lt_mul (by norm_num : 0 < 256)]
      calc n < 256 ^ (w + 1) := hn
        _ = 256 ^ w * 256 := by ring
    have hstep : natFromLE (n % 256 :: natToLE w (n / 256))
        = n % 256 + 256 * natFromLE (natToLE w (n / 256)) := rfl
    rw [natToLE, hstep, ih _ hd]
    omega

/-- `natToLE` always produces exactly `w` bytes. -/
theorem length_natToLE (w : Nat) : ∀ n : Nat, (natToLE w n).length = w := by
  induction w with
  | zero => intro n; rfl
  | succ w ih => intro n; simp [natToLE, ih]

/-- Decoding an encoded optional integer consumes exactly the encoding
and returns the value. -/
theorem decodeOptNat_encodeOptNat (w : Nat) (o : Option Nat)
    (h : ∀ n ∈ o, n < 256 ^ w) (rest : Bytes) :
    decodeOptNat w (encodeOptNat w o ++ rest) = some (o, rest) := by
  cases o with
  | none => rfl
  | some n =>
    have hlen := length_natToLE w n
    simp only [encodeOptNat, List.cons_append, decodeOptNat]
    rw [if_pos (by simp [hlen])]
    rw [List.take_left' hlen, List.drop_left' hlen]
    rw [natFromLE_natToLE w n (h n rfl)]

/-- The derived SCALE codec of `Constraints` round-trips. -/
theorem Constraints.decode_encode (c : Constraints)
    (hb : ∀ n ∈ c.max_blocks, n < 2 ^ 32) (hm : ∀ n ∈ c.max_mem, n < 2 ^ 64) :
    Constraints.decode c.encode = some c := by
  have hb2 : ∀ n ∈ c.max_blocks, n < 256 ^ 4 := by
    intro n hn
    calc n < 2 ^ 32 := hb n hn
      _ = 256 ^ 4 := by norm_num
  have hm2 : ∀ n ∈ c.max_mem, n < 256 ^ 8 := by
    intro n hn
    calc n < 2 ^ 64 := hm n hn
      _ = 256 ^ 8 := by norm_num
  have h1 := decodeOptNat_encodeOptNat 4 c.max_blocks hb2 (encodeOptNat 8 c.max_mem)
  have h2 := decodeOptNat_encodeOptNat 8 c.max_mem hm2 []
  rw [List.append_nil] at h2
  simp [Constraints.decode, Constraints.encode, h1, h2]

/-- C10: writing any pruning mode and then fetching it, over a metadata
store in which `get_meta` returns exactly what `set_meta` last stored
per key, returns `Ok(Some(mode))` with the mode written; the
`Constrained` payload round trips through its codec (within the `u32`
and `u64` ranges of its fields). -/
theorem claim_C10 (db : MetaDb) (pm : PruningMode)
    (hc : ∀ c, pm = PruningMode.Constrained c →
        (∀ n ∈ c.max_blocks, n < 2 ^ 32) ∧ (∀ n ∈ c.max_mem, n < 2 ^ 64)) :
    meta_data_fetch_pruning_mode (meta_data_write_pruning_mode db pm)
      = some (some pm) := by
  have hkey : PRUNING_MODE_KEY ≠ PRUNING_MODE_ARG_KEY := by decide
  cases pm with
  | ArchiveAll =>
    have hmode : get_meta (meta_data_write_pruning_mode db .ArchiveAll) PRUNING_MODE_KEY
        = some PRUNING_MODE_ARCHIVE := by
      simp [meta_data_write_pruning_mode, get_meta, set_meta, hkey]
    have harg : get_meta (meta_data_write_pruning_mode db .ArchiveAll) PRUNING_MODE_ARG_KEY
        = none := by
      simp [meta_data_write_pruning_mode, get_meta, set_meta]
    simp [meta_data_fetch_pruning_mode, hmode, harg]
  | ArchiveCanonical =>
    have hmode : get_meta (meta_data_write_pruning_mode db .ArchiveCanonical) PRUNING_MODE_KEY
        = some PRUNING_MODE_ARCHIVE_CANON := by
      simp [meta_data_write_pruning_mode, get_meta, set_meta, hkey]
    have harg : get_meta (meta_data_write_pruning_mode db .ArchiveCanonical)
        PRUNING_MODE_ARG_KEY = none := by
      simp [meta_data_write_pruning_mode, get_meta, set_meta]
    simp [meta_data_fetch_pruning_mode, hmode, harg]
    decide
  | Constrained c =>
    have hmode : get_meta (meta_data_write_pruning_mode db (.Constrained c)) PRUNING_MODE_KEY
        = some PRUNING_MODE_CONSTRAINED := by
      simp [meta_data_write_pruning_mode, get_meta, set_meta, hkey]
    have harg : get_meta (meta_data_write_pruning_mode db (.Constrained c))
        PRUNING_MODE_ARG_KEY = some c.encode := by
      simp [meta_data_write_pruning_mode, get_meta, set_meta]
    obtain ⟨hb, hm⟩ := hc c rfl
    simp [meta_data_fetch_pruning_mode, hmode, harg]
    rw [Constraints.decode_encode c hb hm]
    rfl

/-- Witness for C10 with a concrete constrained pruning mode over the
empty store. -/
theorem claim_C10_witness :
    meta_data_fetch_pruning_mode
      (meta_data_write_pruning_mode (fun _ => none)
        (.Constrained ⟨some 256, none⟩))
      = some (some (.Constrained ⟨some 256, none⟩)) :=
  claim_C10 (fun _ => none) (.Constrained ⟨some 256, none⟩)
    (by
      intro c hc
      cases hc
      constructor
      · intro n hn
        cases hn
        norm_num
      · intro n hn
        cases hn)

end StateDbMeta

namespace PersistPeers

/-- The canonical enumeration of an address set collects back to the
set itself. -/
theorem addrList_toFinset (v : AddrSet) : (addrList v).toFinset = v := by
  ext a
  simp only [addrList, List.mem_toFinset, List.mem_filter, List.mem_range,
    decide_eq_true_eq]
  constructor
  · intro h
    exact h.2
  · intro h
    exact ⟨Nat.lt_succ_of_le (@Finset.le_sup Nat Nat _ _ v id a h), h⟩

/-- The reverse replay of `PersistPeerAddrs::load` reconstructs, for
each protocol, the cache whose most-recently-used-first entry list is
the parseable prefix (up to capacity) of the snapshot sequence in
snapshot order. -/
theorem loadCache_eq (es : List PeerEntry)
    (h : ((es.filterMap parseEntry).map Prod.fst).Nodup) :
    loadCache es
      = ⟨PEER_ADDRS_CACHE_SIZE,
          (es.filterMap parseEntry).take PEER_ADDRS_CACHE_SIZE⟩ := by
  induction es with
  | nil => rfl
  | cons pe rest ih =>
    have hfold : loadCache (pe :: rest)
        = (match parsePeerId pe.peer_id with
            | some pid => (loadCache rest).push pid pe.addrs.toFinset
            | none => loadCache rest) := by
      simp only [loadCache, List.reverse_cons, List.foldl_append, List.foldl_cons,
        List.foldl_nil]
    cases hp : parsePeerId pe.peer_id with
    | none =>
      have hpe : parseEntry pe = none := by simp [parseEntry, hp]
      have hh : ((rest.filterMap parseEntry).map Prod.fst).Nodup := by
        rwa [List.filterMap_cons_none hpe] at h
      rw [hfold, hp, ih hh, List.filterMap_cons_none hpe]
    | some pid =>
      have hpe : parseEntry pe = some (pid, pe.addrs.toFinset) := by
        simp [parseEntry, hp]
      rw [List.filterMap_cons_some hpe] at h ⊢
      simp only [List.map_cons, List.nodup_cons] at h
      obtain ⟨hpid, hh⟩ := h
      rw [hfold, hp, ih hh]
      have hfind : ((rest.filterMap parseEntry).take PEER_ADDRS_CACHE_SIZE).find?
          (fun e => decide (e.1 = pid)) = none := by
        rw [List.find?_eq_none]
        intro x hx
        simp only [decide_eq_true_eq]
        intro hx1
        exact hpid (hx1 ▸ List.mem_map_of_mem Prod.fst (List.take_subset _ _ hx))
      set wsr := rest.filterMap parseEntry with hwsr
      by_cases hlen : PEER_ADDRS_CACHE_SIZE ≤ wsr.length
      · have hlt : (wsr.take PEER_ADDRS_CACHE_SIZE).length = PEER_ADDRS_CACHE_SIZE := by
          simp [List.length_take, Nat.min_eq_left hlen]
        have hcond : PEER_ADDRS_CACHE_SIZE ≤ (wsr.take PEER_ADDRS_CACHE_SIZE).length := by
          rw [hlt]
        simp only [LruCache.push, LruCache.pushE, LruCache.find, hfind, if_pos hcond]
        have hdrop : (wsr.take PEER_ADDRS_CACHE_SIZE).dropLast
            = wsr.take (PEER_ADDRS_CACHE_SIZE - 1) := by
          rw [List.dropLast_eq_take, hlt, List.take_take, Nat.min_eq_left (by omega)]
        rw [hdrop]
        have htake : wsr.take PEER_ADDRS_CACHE_SIZE
            |> (fun t => ((pid, pe.addrs.toFinset) :: wsr.take (PEER_ADDRS_CACHE_SIZE - 1))
                = ((pid, pe.addrs.toFinset) :: wsr).take PEER_ADDRS_CACHE_SIZE) := by
          show ((pid, pe.addrs.toFinset) :: wsr.take (PEER_ADDRS_CACHE_SIZE - 1))
              = ((pid, pe.addrs.toFinset) :: wsr).take PEER_ADDRS_CACHE_SIZE
          rw [show PEER_ADDRS_CACHE_SIZE = (PEER_ADDRS_CACHE_SIZE - 1) + 1 from rfl]
          rfl
        rw [htake]
      · push_neg at hlen
        have htk : wsr.take PEER_ADDRS_CACHE_SIZE = wsr :=
          List.take_of_length_le (by omega)
        have hcond : ¬ PEER_ADDRS_CACHE_SIZE ≤ (wsr.take PEER_ADDRS_CACHE_SIZE).length := by
          rw [htk]; omega
        simp only [LruCache.push, LruCache.pushE, LruCache.find, hfind, if_neg hcond]
        rw [htk, List.take_of_length_le (by simp; omega)]

/-- C6: loading replays each protocol's entries in reverse snapshot
order into a fresh LRU, so the loaded recency list equals the parseable
part of the snapshot sequence in snapshot order (truncated at capacity):
in particular the snapshot's first parseable entry — the previous
session's most-recently-used one — is most-recently-used after the load,
and every entry whose peer-identity text fails to parse is dropped while
the rest of the load proceeds. -/
theorem claim_C6 (es : List PeerEntry)
    (h : ((es.filterMap parseEntry).map Prod.fst).Nodup) :
    (loadCache es).entries
      = (es.filterMap parseEntry).take PEER_ADDRS_CACHE_SIZE
    ∧ (∀ kv : PeerId × AddrSet, (es.filterMap parseEntry).head? = some kv →
        (loadCache es).entries.head? = some kv) := by
  have heq := loadCache_eq es h
  refine ⟨by rw [heq], ?_⟩
  intro kv hkv
  rw [heq]
  cases hws : es.filterMap parseEntry with
  | nil => rw [hws] at hkv; cases hkv
  | cons w t =>
    rw [hws] at hkv
    simp only [List.head?_cons, Option.some.injEq] at hkv
    subst hkv
    rfl

/-- Witness for C6: a snapshot with a malformed middle entry loads into
the two well-formed entries in snapshot order. -/
theorem claim_C6_witness :
    (loadCache [⟨some 1, [5]⟩, ⟨none, [6]⟩, ⟨some 2, [7]⟩]).entries
      = (([⟨some 1, [5]⟩, ⟨none, [6]⟩, ⟨some 2, [7]⟩] : List PeerEntry).filterMap
          parseEntry).take PEER_ADDRS_CACHE_SIZE :=
  (claim_C6 [⟨some 1, [5]⟩, ⟨none, [6]⟩, ⟨some 2, [7]⟩] (by decide)).1

/-- C9: a snapshot holding more than 100 well-formed entries for a
protocol loads into exactly the first 100 of them (the
most-recently-used ones); the later entries are evicted by the reverse
replay into the capacity-100 LRU and are absent from the loaded
cache. -/
theorem claim_C9 (es : List PeerEntry)
    (h : ((es.filterMap parseEntry).map Prod.fst).Nodup)
    (hlong : PEER_ADDRS_CACHE_SIZE < (es.filterMap parseEntry).length) :
    (loadCache es).entries
      = (es.filterMap parseEntry).take PEER_ADDRS_CACHE_SIZE
    ∧ (loadCache es).entries.length = PEER_ADDRS_CACHE_SIZE
    ∧ (∀ kv ∈ (es.filterMap parseEntry).drop PEER_ADDRS_CACHE_SIZE,
        kv ∉ (loadCache es).entries) := by
  have heq := loadCache_eq es h
  have hlen : (loadCache es).entries.length = PEER_ADDRS_CACHE_SIZE := by
    rw [heq]
    simp [List.length_take]
    omega
  refine ⟨by rw [heq], hlen, ?_⟩
  intro kv hdrop hmem
  rw [heq] at hmem
  have hsplit : (es.filterMap parseEntry).map Prod.fst
      = ((es.filterMap parseEntry).take PEER_ADDRS_CACHE_SIZE).map Prod.fst
        ++ ((es.filterMap parseEntry).drop PEER_ADDRS_CACHE_SIZE).map Prod.fst := by
    rw [← List.map_append, List.take_append_drop]
  rw [hsplit] at h
  rcases List.nodup_append.mp h with ⟨-, -, hdisj⟩
  exact hdisj (List.mem_map_of_mem Prod.fst hmem) (List.mem_map_of_mem Prod.fst hdrop)

/-- Witness for C9 at a 101-entry snapshot: the loaded cache holds
exactly 100 entries. -/
theorem claim_C9_witness :
    (loadCache ((List.range 101).map
        (fun i => PeerEntry.mk (some i) [i]))).entries.length
      = PEER_ADDRS_CACHE_SIZE :=
  (claim_C9 ((List.range 101).map (fun i => PeerEntry.mk (some i) [i]))
    (by decide) (by decide)).2.1

/-- Parsing back the snapshot rendering of a cache's entry list yields
the entry list itself. -/
theorem filterMap_parseEntry_snapshot (l : List (PeerId × AddrSet)) :
    (l.map (fun kv => PeerEntry.mk (peerIdToText kv.1) (addrList kv.2))).filterMap
        parseEntry = l := by
  rw [List.filterMap_map]
  have hfun : (parseEntry ∘ fun kv : PeerId × AddrSet =>
      PeerEntry.mk (peerIdToText kv.1) (addrList kv.2)) = some := by
    funext kv
    simp [parseEntry, parsePeerId, peerIdToText, Function.comp, addrList_toFinset]
  rw [hfun, List.filterMap_some]


/-- C5: flattening a book into a snapshot and loading the snapshot back
reconstructs the book exactly (hence with per-protocol, per-peer address
sets equal as sets to the original's), for any book whose per-protocol
caches are capacity-100 LRUs within capacity with duplicate-free
keys. -/
theorem claim_C5 (b : Book)
    (hwf : ∀ e ∈ b, e.2.cap = PEER_ADDRS_CACHE_SIZE
        ∧ e.2.entries.length ≤ PEER_ADDRS_CACHE_SIZE
        ∧ (e.2.entries.map Prod.fst).Nodup) :
    load_from_snapshot (to_snapshot b) = b
    ∧ (∀ (p : ProtocolType) (peer : PeerId),
        addrsAt (load_from_snapshot (to_snapshot b)) p peer = addrsAt b p peer) := by
  have hmain : load_from_snapshot (to_snapshot b) = b := by
    unfold load_from_snapshot to_snapshot
    rw [List.map_map]
    rw [show ∀ (l : Book) (f : ProtocolType × PeerCache → ProtocolType × PeerCache),
        (∀ x ∈ l, f x = x) → l.map f = l from
      fun l f h => (List.map_congr_left h).trans (List.map_id l)]
    intro e he
    obtain ⟨hcap, hlen, hnodup⟩ := hwf e he
    have hws := filterMap_parseEntry_snapshot e.2.entries
    have hnd : (((e.2.entries.map
        (fun kv => PeerEntry.mk (peerIdToText kv.1) (addrList kv.2))).filterMap
          parseEntry).map Prod.fst).Nodup := by
      rw [hws]; exact hnodup
    simp only [Function.comp]
    rw [loadCache_eq _ hnd, hws, List.take_of_length_le hlen]
    rw [← hcap]
  exact ⟨hmain, fun p peer => by rw [hmain]⟩

/-- Witness for C5 at a concrete two-peer book. -/
theorem claim_C5_witness :
    load_from_snapshot (to_snapshot
        [("p", (⟨100, [(1, {7}), (2, {8})]⟩ : PeerCache))])
      = [("p", (⟨100, [(1, {7}), (2, {8})]⟩ : PeerCache))] :=
  (claim_C5 [("p", ⟨100, [(1, {7}), (2, {8})]⟩)] (by decide)).1

/-- Membership in an address list yielded by `peer_addrs` is membership
in the underlying address set. -/
theorem mem_addrList (v : AddrSet) (a : Multiaddr) : a ∈ addrList v ↔ a ∈ v := by
  rw [← List.mem_toFinset, addrList_toFinset]

/-- Filtering out another key does not change what a key lookup finds. -/
theorem find_filter_ne (l : List (PeerId × AddrSet)) (peer k : PeerId) (hne : peer ≠ k) :
    (l.filter (fun e2 => decide (e2.1 ≠ k))).find? (fun e => decide (e.1 = peer))
      = l.find? (fun e => decide (e.1 = peer)) := by
  induction l with
  | nil => rfl
  | cons x t ih =>
    by_cases hx : x.1 = k
    · have h2 : ¬ x.1 = peer := fun hp => hne (hp ▸ hx)
      rw [List.filter_cons_of_neg (by simp [hx])]
      rw [List.find?_cons_of_neg _ (by simp [h2])]
      exact ih
    · rw [List.filter_cons_of_pos (by simp [hx])]
      by_cases hp : x.1 = peer
      · rw [List.find?_cons_of_pos _ (by simp [hp]), List.find?_cons_of_pos _ (by simp [hp])]
      · rw [List.find?_cons_of_neg _ (by simp [hp]), List.find?_cons_of_neg _ (by simp [hp])]
        exact ih

/-- Dropping the last element does not change what a key lookup finds,
provided the last element does not have that key. -/
theorem find_dropLast (l : List (PeerId × AddrSet)) (peer : PeerId)
    (kv : PeerId × AddrSet)
    (h : l.find? (fun e => decide (e.1 = peer)) = some kv)
    (hlast : ∀ x, l.getLast? = some x → x.1 ≠ peer) :
    l.dropLast.find? (fun e => decide (e.1 = peer)) = some kv := by
  induction l with
  | nil => cases h
  | cons x t ih =>
    cases t with
    | nil =>
      rw [List.find?_cons] at h
      cases hp : (decide (x.1 = peer)) with
      | false => rw [hp] at h; cases h
      | true =>
        exact absurd (of_decide_eq_true hp) (hlast x rfl)
    | cons y t2 =>
      have hdl : (x :: y :: t2).dropLast = x :: (y :: t2).dropLast := rfl
      rw [hdl]
      rw [List.find?_cons] at h ⊢
      cases hp : (decide (x.1 = peer)) with
      | true => rw [hp] at h; exact h
      | false =>
        rw [hp] at h
        exact ih h (fun z hz => hlast z (by rw [List.getLast?_cons_cons]; exact hz))

/-- Every address present after a `report_peer_addr` on one cache is
either the reported one (under the reported peer) or was already present
under the same peer. -/
theorem mem_reportInCache (c : PeerCache) (peer : PeerId) (addr : Multiaddr) :
    ∀ kv ∈ (reportInCache c peer addr).1.entries, ∀ a ∈ kv.2,
      (kv.1 = peer ∧ a = addr)
      ∨ ∃ kv0 ∈ c.entries, kv0.1 = kv.1 ∧ a ∈ kv0.2 := by
  intro kv hkv a ha
  unfold reportInCache at hkv
  cases hfind : c.find peer with
  | some e1 =>
    rw [hfind] at hkv
    simp only [List.mem_cons] at hkv
    rcases hkv with hkv | hkv
    · subst hkv
      simp only at ha
      rcases Finset.mem_insert.mp ha with ha | ha
      · exact Or.inl ⟨rfl, ha⟩
      · refine Or.inr ⟨e1, List.mem_of_find?_eq_some hfind, ?_, ha⟩
        have := List.find?_some hfind
        simpa using this
    · exact Or.inr ⟨kv, List.mem_filter.mp hkv |>.1, rfl, ha⟩
  | none =>
    rw [hfind] at hkv
    unfold LruCache.pushE at hkv
    rw [hfind] at hkv
    by_cases hcap : c.cap ≤ c.entries.length
    · rw [if_pos hcap] at hkv
      simp only [List.mem_cons] at hkv
      rcases hkv with hkv | hkv
      · subst hkv
        simp only at ha
        exact Or.inl ⟨rfl, Finset.mem_singleton.mp ha⟩
      · exact Or.inr ⟨kv, List.dropLast_subset _ hkv, rfl, ha⟩
    · rw [if_neg hcap] at hkv
      simp only [List.mem_cons] at hkv
      rcases hkv with hkv | hkv
      · subst hkv
        simp only at ha
        exact Or.inl ⟨rfl, Finset.mem_singleton.mp ha⟩
      · exact Or.inr ⟨kv, hkv, rfl, ha⟩

/-- A book lookup skips an entry with a different key. -/
theorem bookLookup_cons_ne (e : ProtocolType × PeerCache) (t : Book)
    (p : ProtocolType) (he : ¬ e.1 = p) :
    bookLookup (e :: t) p = bookLookup t p := by
  simp only [bookLookup]
  rw [List.find?_cons_of_neg t (by simp [he])]

/-- A book lookup stops at an entry with the looked-up key. -/
theorem bookLookup_cons_eq (e : ProtocolType × PeerCache) (t : Book)
    (p : ProtocolType) (he : e.1 = p) :
    bookLookup (e :: t) p = some e.2 := by
  simp only [bookLookup]
  rw [List.find?_cons_of_pos t (by simp [he])]
  rfl

/-- Updating the cache stored under a key makes lookups of that key
return the new cache, provided the key was present. -/
theorem bookLookup_update_self (b : Book) (p : ProtocolType) (c c2 : PeerCache)
    (h : bookLookup b p = some c) :
    bookLookup (bookUpdate b p c2) p = some c2 := by
  induction b with
  | nil => cases h
  | cons e t ih =>
    by_cases he : e.1 = p
    · simp only [bookUpdate, List.map_cons, if_pos he]
      exact bookLookup_cons_eq (p, c2) _ p rfl
    · simp only [bookUpdate, List.map_cons, if_neg he]
      rw [bookLookup_cons_ne e t p he] at h
      rw [bookLookup_cons_ne e _ p he]
      exact ih h

/-- Updating the cache stored under one key leaves lookups of any other
key unchanged. -/
theorem bookLookup_update_ne (b : Book) (p : ProtocolType) (c2 : PeerCache)
    (q : ProtocolType) (hq : q ≠ p) :
    bookLookup (bookUpdate b p c2) q = bookLookup b q := by
  induction b with
  | nil => rfl
  | cons e t ih =>
    by_cases he : e.1 = p
    · simp only [bookUpdate, List.map_cons, if_pos he]
      have h1 : ¬ ((p, c2) : ProtocolType × PeerCache).1 = q := fun h => hq h.symm
      have h2 : ¬ e.1 = q := fun h => hq (h.symm.trans he)
      rw [bookLookup_cons_ne (p, c2) _ q h1, bookLookup_cons_ne e t q h2]
      exact ih
    · simp only [bookUpdate, List.map_cons, if_neg he]
      by_cases heq : e.1 = q
      · rw [bookLookup_cons_eq e _ q heq, bookLookup_cons_eq e t q heq]
      · rw [bookLookup_cons_ne e _ q heq, bookLookup_cons_ne e t q heq]
        exact ih

/-- A lookup that misses the first part of an appended book continues in
the second part. -/
theorem bookLookup_append_of_none (b b2 : Book) (p : ProtocolType)
    (h : bookLookup b p = none) :
    bookLookup (b ++ b2) p = bookLookup b2 p := by
  induction b with
  | nil => rfl
  | cons e t ih =>
    by_cases he : e.1 = p
    · rw [bookLookup_cons_eq e t p he] at h
      cases h
    · rw [bookLookup_cons_ne e t p he] at h
      rw [List.cons_append, bookLookup_cons_ne e _ p he]
      exact ih h

/-- A lookup that hits the first part of an appended book is unchanged
by the append. -/
theorem bookLookup_append_of_some (b b2 : Book) (p : ProtocolType) (c : PeerCache)
    (h : bookLookup b p = some c) :
    bookLookup (b ++ b2) p = some c := by
  induction b with
  | nil => cases h
  | cons e t ih =>
    by_cases he : e.1 = p
    · rw [bookLookup_cons_eq e t p he] at h
      rw [List.cons_append, bookLookup_cons_eq e _ p he]
      exact h
    · rw [bookLookup_cons_ne e t p he] at h
      rw [List.cons_append, bookLookup_cons_ne e _ p he]
      exact ih h

/-- A successful book lookup comes from a member entry with that key. -/
theorem bookLookup_some_mem (b : Book) (p : ProtocolType) (c : PeerCache)
    (h : bookLookup b p = some c) :
    ∃ e ∈ b, e.1 = p ∧ e.2 = c := by
  unfold bookLookup at h
  cases hf : b.find? (fun e => decide (e.1 = p)) with
  | none => rw [hf] at h; cases h
  | some ef =>
    rw [hf] at h
    refine ⟨ef, List.mem_of_find?_eq_some hf, ?_, Option.some.inj h⟩
    have := List.find?_some hf
    simpa using this

/-- After reporting an address, the reporting protocol's cache holds it
for the reported peer. -/
theorem find_reportInCache_self (c : PeerCache) (peer : PeerId) (addr : Multiaddr) :
    ∃ kv, (reportInCache c peer addr).1.find peer = some kv ∧ addr ∈ kv.2 := by
  unfold reportInCache
  cases hfind : c.find peer with
  | some e1 =>
    refine ⟨(peer, insert addr e1.2), ?_, Finset.mem_insert_self addr e1.2⟩
    unfold LruCache.find
    rw [List.find?_cons_of_pos _ (by simp)]
  | none =>
    unfold LruCache.pushE
    rw [hfind]
    by_cases hcap : c.cap ≤ c.entries.length
    · rw [if_pos hcap]
      refine ⟨(peer, {addr}), ?_, Finset.mem_singleton_self addr⟩
      unfold LruCache.find
      rw [List.find?_cons_of_pos _ (by simp)]
    · rw [if_neg hcap]
      refine ⟨(peer, {addr}), ?_, Finset.mem_singleton_self addr⟩
      unfold LruCache.find
      rw [List.find?_cons_of_pos _ (by simp)]

/-- A reported address for one peer does not disturb what the cache
holds for another peer, unless that peer's entry is the one evicted. -/
theorem find_reportInCache_other (c : PeerCache) (rpeer : PeerId) (raddr : Multiaddr)
    (peer : PeerId) (kv : PeerId × AddrSet)
    (h : c.find peer = some kv)
    (hev : ∀ ev, (reportInCache c rpeer raddr).2 = some ev → ev.1 ≠ peer) :
    ∃ kv2, (reportInCache c rpeer raddr).1.find peer = some kv2 ∧ kv.2 ⊆ kv2.2 := by
  unfold reportInCache at hev ⊢
  cases hfind : c.find rpeer with
  | some e1 =>
    by_cases hpp : rpeer = peer
    · subst hpp
      rw [h] at hfind
      cases Option.some.inj hfind
      refine ⟨(rpeer, insert raddr kv.2), ?_, Finset.subset_insert raddr kv.2⟩
      unfold LruCache.find
      rw [List.find?_cons_of_pos _ (by simp)]
    · refine ⟨kv, ?_, Finset.Subset.refl kv.2⟩
      unfold LruCache.find
      rw [List.find?_cons_of_neg _ (by simp; exact fun hc => hpp hc)]
      have hne : peer ≠ rpeer := fun hc => hpp hc.symm
      rw [find_filter_ne c.entries peer rpeer hne]
      exact h
  | none =>
    have hpp : rpeer ≠ peer := by
      intro hc
      rw [hc, h] at hfind
      cases hfind
    rw [hfind] at hev
    unfold LruCache.pushE at hev ⊢
    rw [hfind] at hev ⊢
    by_cases hcap : c.cap ≤ c.entries.length
    · rw [if_pos hcap] at hev ⊢
      refine ⟨kv, ?_, Finset.Subset.refl kv.2⟩
      unfold LruCache.find
      rw [List.find?_cons_of_neg _ (by simp; exact fun hc => hpp hc)]
      refine find_dropLast c.entries peer kv h ?_
      intro x hx hxp
      exact hev x (by simp [hx]) hxp
    · rw [if_neg hcap]
      refine ⟨kv, ?_, Finset.Subset.refl kv.2⟩
      unfold LruCache.find
      rw [List.find?_cons_of_neg _ (by simp; exact fun hc => hpp hc)]
      exact h

/-- A report establishes its own address in the book. -/
theorem holdsAddr_applyReport_self (b : Book) (r : Report) :
    holdsAddr (applyReport b r).1 r.protocol r.peer r.addr := by
  unfold applyReport report_peer_addr
  cases hlook : bookLookup b r.protocol with
  | some c =>
    obtain ⟨kv, hkv, ha⟩ := find_reportInCache_self c r.peer r.addr
    exact ⟨(reportInCache c r.peer r.addr).1,
      bookLookup_update_self b r.protocol c _ hlook, kv, hkv, ha⟩
  | none =>
    obtain ⟨kv, hkv, ha⟩ :=
      find_reportInCache_self (LruCache.empty PeerId AddrSet PEER_ADDRS_CACHE_SIZE)
        r.peer r.addr
    refine ⟨(reportInCache (LruCache.empty PeerId AddrSet PEER_ADDRS_CACHE_SIZE)
        r.peer r.addr).1, ?_, kv, hkv, ha⟩
    rw [bookLookup_append_of_none b _ r.protocol hlook]
    exact bookLookup_cons_eq _ [] r.protocol rfl

/-- A later report preserves a held address unless it evicts exactly
that protocol/peer entry. -/
theorem holdsAddr_applyReport (b : Book) (r : Report) (p : ProtocolType)
    (peer : PeerId) (a : Multiaddr)
    (h : holdsAddr b p peer a)
    (hev : (applyReport b r).2 ≠ some (p, peer)) :
    holdsAddr (applyReport b r).1 p peer a := by
  obtain ⟨c, hc, kv, hkv, ha⟩ := h
  unfold applyReport report_peer_addr at hev ⊢
  cases hlook : bookLookup b r.protocol with
  | some c0 =>
    rw [hlook] at hev
    by_cases hp : p = r.protocol
    · subst hp
      rw [hc] at hlook
      cases Option.some.inj hlook
      have hev2 : ∀ ev, (reportInCache c r.peer r.addr).2 = some ev → ev.1 ≠ peer := by
        intro ev hevsome hevpeer
        apply hev
        simp only [hevsome, Option.map_some']
        rw [hevpeer]
      obtain ⟨kv2, hkv2, hsub⟩ :=
        find_reportInCache_other c r.peer r.addr peer kv hkv hev2
      exact ⟨(reportInCache c r.peer r.addr).1,
        bookLookup_update_self b r.protocol c _ hc, kv2, hkv2, hsub ha⟩
    · refine ⟨c, ?_, kv, hkv, ha⟩
      rw [bookLookup_update_ne b r.protocol _ p hp]
      exact hc
  | none =>
    by_cases hp : p = r.protocol
    · subst hp
      rw [hc] at hlook
      cases hlook
    · exact ⟨c, by rw [bookLookup_append_of_some b _ p c hc], kv, hkv, ha⟩

/-- One step of the instrumented report fold. -/
theorem evictions_cons (b : Book) (r : Report) (rest : List Report) :
    evictions b (r :: rest)
      = (applyReport b r).2.toList ++ evictions (applyReport b r).1 rest := rfl

/-- Held addresses survive any report sequence that never evicts their
protocol/peer entry. -/
theorem holdsAddr_runReports (rs : List Report) (b : Book) (p : ProtocolType)
    (peer : PeerId) (a : Multiaddr)
    (h : holdsAddr b p peer a)
    (hev : (p, peer) ∉ evictions b rs) :
    holdsAddr (runReports b rs) p peer a := by
  induction rs generalizing b with
  | nil => exact h
  | cons r rest ih =>
    have hstep : (applyReport b r).2 ≠ some (p, peer) := by
      intro hc
      apply hev
      rw [evictions_cons, hc]
      exact List.mem_append_left _ (by simp)
    have hrest : (p, peer) ∉ evictions (applyReport b r).1 rest := by
      intro hc
      apply hev
      rw [evictions_cons]
      exact List.mem_append_right _ hc
    have hrun : runReports b (r :: rest) = runReports (applyReport b r).1 rest := rfl
    rw [hrun]
    exact ih _ (holdsAddr_applyReport b r p peer a h hstep) hrest

/-- Running an appended report sequence is running the parts in
order. -/
theorem runReports_append (b : Book) (rs1 rs2 : List Report) :
    runReports b (rs1 ++ rs2) = runReports (runReports b rs1) rs2 :=
  List.foldl_append _ _ rs1 rs2

/-- One report only adds the reported address (under the reported peer
and protocol) to the book; everything else present was present
before. -/
theorem applyReport_sound (b : Book) (r : Report) (done : List Report)
    (hb : ∀ e ∈ b, ∀ kv ∈ e.2.entries, ∀ a ∈ kv.2, (⟨kv.1, e.1, a⟩ : Report) ∈ done) :
    ∀ e ∈ (applyReport b r).1, ∀ kv ∈ e.2.entries, ∀ a ∈ kv.2,
      (⟨kv.1, e.1, a⟩ : Report) ∈ done ++ [r] := by
  intro e2 he2 kv hkv a ha
  unfold applyReport report_peer_addr at he2
  cases hlook : bookLookup b r.protocol with
  | some c =>
    rw [hlook] at he2
    simp only at he2
    rcases List.mem_map.mp he2 with ⟨e0, he0, heq⟩
    by_cases hkey : e0.1 = r.protocol
    · rw [if_pos hkey] at heq
      subst heq
      rcases mem_reportInCache c r.peer r.addr kv hkv a ha with ⟨hkv1, ha1⟩ | ⟨kv0, hkv0, hk, ha0⟩
      · refine List.mem_append_right _ ?_
        simp only [List.mem_singleton]
        rw [hkv1, ha1]
      · obtain ⟨ec, hec, heck, hecc⟩ := bookLookup_some_mem b r.protocol c hlook
        refine List.mem_append_left _ ?_
        have := hb ec hec kv0 (by rw [hecc]; exact hkv0) a ha0
        rw [heck] at this
        rw [← hk]
        exact this
    · rw [if_neg hkey] at heq
      subst heq
      exact List.mem_append_left _ (hb e0 he0 kv hkv a ha)
  | none =>
    rw [hlook] at he2
    simp only at he2
    rcases List.mem_append.mp he2 with he2 | he2
    · exact List.mem_append_left _ (hb e2 he2 kv hkv a ha)
    · simp only [List.mem_singleton] at he2
      subst he2
      rcases mem_reportInCache _ r.peer r.addr kv hkv a ha with ⟨hkv1, ha1⟩ | ⟨kv0, hkv0, -, -⟩
      · refine List.mem_append_right _ ?_
        simp only [List.mem_singleton]
        rw [hkv1, ha1]
      · cases hkv0
  
/-- Every address in a book built by a report sequence was reported. -/
theorem runReports_sound (rs : List Report) :
    ∀ (b : Book) (done : List Report),
    (∀ e ∈ b, ∀ kv ∈ e.2.entries, ∀ a ∈ kv.2, (⟨kv.1, e.1, a⟩ : Report) ∈ done) →
    ∀ e ∈ runReports b rs, ∀ kv ∈ e.2.entries, ∀ a ∈ kv.2,
      (⟨kv.1, e.1, a⟩ : Report) ∈ done ++ rs := by
  induction rs with
  | nil =>
    intro b done hb e he kv hkv a ha
    rw [List.append_nil]
    exact hb e he kv hkv a ha
  | cons r rest ih =>
    intro b done hb e he kv hkv a ha
    have hrun : runReports b (r :: rest) = runReports (applyReport b r).1 rest := rfl
    rw [hrun] at he
    have := ih (applyReport b r).1 (done ++ [r]) (applyReport_sound b r done hb) e he kv hkv a ha
    rwa [List.append_assoc, List.singleton_append] at this

/-- An address held for a queried protocol is yielded by `peer_addrs`. -/
theorem mem_peer_addrs_intro (b : Book) (peer : PeerId) (protocols : List ProtocolType)
    (e : ProtocolType × PeerCache) (he : e ∈ b) (hq : e.1 ∈ protocols)
    (kv : PeerId × AddrSet) (hkv : e.2.find peer = some kv)
    (a : Multiaddr) (ha : a ∈ kv.2) :
    a ∈ (peer_addrs b peer protocols).1 := by
  unfold peer_addrs
  simp only [List.map_map]
  rw [List.mem_flatten]
  refine ⟨addrList kv.2, ?_, (mem_addrList kv.2 a).mpr ha⟩
  have hany : protocols.any (fun p => decide (p = e.1)) = true :=
    List.any_eq_true.mpr ⟨e.1, hq, by simp⟩
  have hget : e.2.get peer = (some kv.2, ⟨e.2.cap,
      (peer, kv.2) :: e.2.entries.filter (fun e2 => decide (e2.1 ≠ peer))⟩) := by
    unfold LruCache.get
    rw [hkv]
  refine List.mem_map.mpr ⟨e, he, ?_⟩
  simp only [Function.comp, hany, if_pos, hget]

/-- Every address yielded by `peer_addrs` is held for the queried peer
under some queried protocol. -/
theorem mem_peer_addrs_elim (b : Book) (peer : PeerId) (protocols : List ProtocolType)
    (a : Multiaddr) (h : a ∈ (peer_addrs b peer protocols).1) :
    ∃ e ∈ b, e.1 ∈ protocols ∧ ∃ kv ∈ e.2.entries, kv.1 = peer ∧ a ∈ kv.2 := by
  unfold peer_addrs at h
  simp only [List.map_map] at h
  rw [List.mem_flatten] at h
  obtain ⟨l, hl, hal⟩ := h
  rcases List.mem_map.mp hl with ⟨e, he, heq⟩
  refine ⟨e, he, ?_⟩
  by_cases hq : protocols.any (fun p => decide (p = e.1))
  · have hmem : e.1 ∈ protocols := by
      rcases List.any_eq_true.mp hq with ⟨x, hx, hxe⟩
      simp only [decide_eq_true_eq] at hxe
      rwa [hxe] at hx
    refine ⟨hmem, ?_⟩
    cases hfind : e.2.find peer with
    | none =>
      have hget : e.2.get peer = (none, e.2) := by
        unfold LruCache.get
        rw [hfind]
      rw [← heq] at hal
      simp only [Function.comp, hq, if_pos, hget] at hal
      cases hal
    | some kv =>
      have hget : e.2.get peer = (some kv.2, ⟨e.2.cap,
          (peer, kv.2) :: e.2.entries.filter (fun e2 => decide (e2.1 ≠ peer))⟩) := by
        unfold LruCache.get
        rw [hfind]
      rw [← heq] at hal
      simp only [Function.comp, hq, if_pos, hget] at hal
      refine ⟨kv, List.mem_of_find?_eq_some hfind, ?_, (mem_addrList kv.2 a).mp hal⟩
      have := List.find?_some hfind
      simpa using this
  · rw [← heq] at hal
    simp only [Function.comp, hq, if_neg, Bool.false_eq_true] at hal
    cases hal

/-- C4: starting from an empty address book, `peer_addrs` returns only
addresses that were reported for the queried peer under one of the
queried protocols; and every address reported for that peer under a
queried protocol is returned, provided no later report evicted that
protocol's entry for the peer by the per-protocol capacity bound. -/
theorem claim_C4 (rs : List Report) (peer : PeerId) (protocols : List ProtocolType) :
    (∀ a ∈ (peer_addrs (runReports [] rs) peer protocols).1,
        ∃ p ∈ protocols, (⟨peer, p, a⟩ : Report) ∈ rs)
    ∧ (∀ (rs1 : List Report) (r : Report) (rs2 : List Report),
        rs = rs1 ++ r :: rs2 → r.peer = peer → r.protocol ∈ protocols →
        (r.protocol, peer) ∉ evictions (runReports [] (rs1 ++ [r])) rs2 →
        r.addr ∈ (peer_addrs (runReports [] rs) peer protocols).1) := by
  constructor
  · intro a ha
    obtain ⟨e, he, hq, kv, hkv, hkey, hav⟩ :=
      mem_peer_addrs_elim (runReports [] rs) peer protocols a ha
    have hsound := runReports_sound rs [] [] (by intro e2 he2; cases he2)
      e he kv hkv a hav
    rw [List.nil_append] at hsound
    refine ⟨e.1, hq, ?_⟩
    rwa [hkey] at hsound
  · intro rs1 r rs2 hsplit hpeer hprot hev
    subst hpeer
    have h1 : holdsAddr (runReports [] (rs1 ++ [r])) r.protocol r.peer r.addr := by
      rw [runReports_append]
      exact holdsAddr_applyReport_self (runReports [] rs1) r
    have h2 : holdsAddr (runReports [] rs) r.protocol r.peer r.addr := by
      rw [hsplit, show rs1 ++ r :: rs2 = (rs1 ++ [r]) ++ rs2 by simp, runReports_append]
      exact holdsAddr_runReports rs2 _ _ _ _ h1 hev
    obtain ⟨c, hc, kv, hkv, ha⟩ := h2
    obtain ⟨e, he, hek, hec⟩ := bookLookup_some_mem _ r.protocol c hc
    refine mem_peer_addrs_intro _ r.peer protocols e he (by rwa [hek]) kv ?_ r.addr ha
    rw [hec]
    exact hkv

/-- Witness for C4's completeness part at a concrete two-report trace:
the first report's address is still returned after a later report for a
different peer. -/
theorem claim_C4_witness :
    (⟨1, "p", 7⟩ : Report).addr
      ∈ (peer_addrs (runReports [] [⟨1, "p", 7⟩, ⟨2, "p", 8⟩]) 1 ["p"]).1 :=
  (claim_C4 [⟨1, "p", 7⟩, ⟨2, "p", 8⟩] 1 ["p"]).2
    [] ⟨1, "p", 7⟩ [⟨2, "p", 8⟩] rfl rfl (by simp) (by decide)

end PersistPeers
